import Mathlib

/-!
Shallow embedding of the MPC controller of `mpc_controller.py`
(class `MPCController`: `__init__`, `solve`, `simulate`).

Real-valued numpy arrays are modelled over `ℚ` (lists of rationals and lists
of rows).  The external cvxpy quadratic-program solver (`problem.solve()` on
line 81) is an opaque third-party library; it is modelled as an abstract
deterministic function from the problem data that `solve` builds (cost and
constraint data, i.e. the controller configuration, the initial state and the
reference trajectory) to a terminal status string together with the values of
the decision variables.  All wrapper code of `mpc_controller.py` around that
call is translated line by line.
-/

namespace MPC

abbrev Vec : Type := List ℚ
abbrev Mat : Type := List (List ℚ)

/-- Dot product of two vectors. -/
def dot (v w : Vec) : ℚ := (List.zipWith (fun a b => a * b) v w).sum

/-- Matrix–vector product `M @ v`, `M` given as a list of rows. -/
def matVec (M : Mat) (v : Vec) : Vec := M.map (fun row => dot row v)

/-- Componentwise vector sum. -/
def vecAdd (v w : Vec) : Vec := List.zipWith (fun a b => a + b) v w

/-- Componentwise vector difference. -/
def vecSub (v w : Vec) : Vec := List.zipWith (fun a b => a - b) v w

/-- Extended rationals: entries of the bound vectors.  `__init__` defaults an
omitted bound vector to `-np.inf * ones` resp. `np.inf * ones`
(`mpc_controller.py` lines 36–39). -/
inductive XRat : Type where
  | ninf : XRat
  | pinf : XRat
  | rat : ℚ → XRat
deriving DecidableEq

/-- Lower-bound test: the bound `b` is at most the value `q` (the numpy
comparison `q >= b` for one component). -/
def XRat.leQ : XRat → ℚ → Bool
  | .ninf, _ => true
  | .pinf, _ => false
  | .rat a, q => decide (a ≤ q)

/-- Upper-bound test: the value `q` is at most the bound `b` (the numpy
comparison `q <= b` for one component). -/
def XRat.geQ : XRat → ℚ → Bool
  | .ninf, _ => false
  | .pinf, _ => true
  | .rat a, q => decide (q ≤ a)

/-- The controller object: exactly the attributes stored by
`MPCController.__init__` (`mpc_controller.py` lines 27–39). -/
structure MPCController : Type where
  A : Mat
  B : Mat
  Q : Mat
  R : Mat
  N : Nat
  x_min : List XRat
  x_max : List XRat
  u_min : List XRat
  u_max : List XRat
deriving DecidableEq

/-- Number of states: `self.n = A.shape[0]` (line 33). -/
def MPCController.nDim (c : MPCController) : Nat := c.A.length

/-- Number of inputs: `self.m = B.shape[1]` (line 34). -/
def MPCController.mDim (c : MPCController) : Nat := (c.B.headD []).length

/-- Python exceptions raised by the translated code: `ValueError` with its
message (line 84) and `IndexError` (empty-slice indexing in `simulate`). -/
inductive PyError : Type where
  | valueError : String → PyError
  | indexError : PyError
deriving DecidableEq

/-- Translation of `MPCController.__init__` (lines 10–39): it stores the
matrices unchanged, reads `n` and `m` off the shapes of `A` and `B`, and
replaces an omitted bound vector by the corresponding `±inf` vector.  The
body performs no dimension checking of any kind, so construction never
fails; the `Except` result type records that no code path raises. -/
def MPCController.init (A B Q R : Mat) (N : Nat)
    (x_min x_max u_min u_max : Option (List XRat)) :
    Except PyError MPCController :=
  .ok { A := A, B := B, Q := Q, R := R, N := N,
        x_min := x_min.getD (List.replicate A.length .ninf),
        x_max := x_max.getD (List.replicate A.length .pinf),
        u_min := u_min.getD (List.replicate (B.headD []).length .ninf),
        u_max := u_max.getD (List.replicate (B.headD []).length .pinf) }

/-- The data of the quadratic program that `solve` hands to cvxpy: the
controller configuration (which determines cost matrices, horizon, dynamics
and box constraints), the initial state `x0`, and the reference trajectory
after the `None` default has been filled in (lines 52–80). -/
structure QPInst : Type where
  c : MPCController
  x0 : Vec
  x_ref : List Vec
deriving DecidableEq

/-- Outcome of `problem.solve()`: the terminal status string together with
the values of the decision variables `u.value` and `x.value`. -/
structure SolveOutcome : Type where
  status : String
  u : List Vec
  x : List Vec
deriving DecidableEq

/-- The external convex solver, abstracted as a deterministic function from
the problem data to an outcome. -/
abbrev Solver : Type := QPInst → SolveOutcome

/-- Decidable equality of `Except` results, so the embedded functions can be
evaluated on concrete inputs. -/
instance instDecEqExcept {ε α : Type} [DecidableEq ε] [DecidableEq α] :
    DecidableEq (Except ε α) := fun x y =>
  match x, y with
  | .error e, .error e' =>
    if h : e = e' then isTrue (by rw [h]) else isFalse (by simp [h])
  | .ok a, .ok b =>
    if h : a = b then isTrue (by rw [h]) else isFalse (by simp [h])
  | .error _, .ok _ => isFalse (by simp)
  | .ok _, .error _ => isFalse (by simp)

/-- Quadratic form `vᵀ M v` (cvxpy `quad_form(v, M)`). -/
def quadForm (v : Vec) (M : Mat) : ℚ := dot v (matVec M v)

/-- Zero reference substituted when `x_ref is None` (lines 52–53): an
`(N+1) × n` array of zeros. -/
def zeroRef (c : MPCController) : List Vec :=
  List.replicate (c.N + 1) (List.replicate c.nDim 0)

/-- The objective of lines 59–64: stage costs
`(x[k]-x_ref[k])ᵀQ(x[k]-x_ref[k]) + u[k]ᵀRu[k]` for `k < N` plus the
terminal cost `(x[N]-x_ref[N])ᵀQ(x[N]-x_ref[N])`. -/
def qpCost (inst : QPInst) (xs us : List Vec) : ℚ :=
  ((List.range inst.c.N).map (fun k =>
      quadForm (vecSub (xs.getD k []) (inst.x_ref.getD k [])) inst.c.Q
        + quadForm (us.getD k []) inst.c.R)).sum
    + quadForm (vecSub (xs.getD inst.c.N []) (inst.x_ref.getD inst.c.N [])) inst.c.Q

/-- Componentwise lower-bound constraint `v >= b` (e.g. `x[k] >= self.x_min`
on line 71): true when the lengths agree and every component satisfies its
bound. -/
def bLe : List XRat → Vec → Bool
  | [], [] => true
  | b :: bs, q :: qs => b.leQ q && bLe bs qs
  | _, _ => false

/-- Componentwise upper-bound constraint `v <= b` (e.g. `x[k] <= self.x_max`
on line 72). -/
def bGe : List XRat → Vec → Bool
  | [], [] => true
  | b :: bs, q :: qs => b.geQ q && bGe bs qs
  | _, _ => false

/-- The constraint set built on lines 67–77, as a satisfaction test on
candidate variable values: `x[0] == x0`; for every `k < N` the dynamics
equality `x[k+1] == A @ x[k] + B @ u[k]` and the four box constraints on
`x[k]` and `u[k]`; finally the box constraints on the terminal state `x[N]`. -/
def feasibleB (c : MPCController) (x0 : Vec) (xs us : List Vec) : Bool :=
  decide (xs.getD 0 [] = x0) &&
  ((List.range c.N).all fun k =>
    decide (xs.getD (k + 1) [] =
      vecAdd (matVec c.A (xs.getD k [])) (matVec c.B (us.getD k []))) &&
    bLe c.x_min (xs.getD k []) && bGe c.x_max (xs.getD k []) &&
    bLe c.u_min (us.getD k []) && bGe c.u_max (us.getD k [])) &&
  bLe c.x_min (xs.getD c.N []) && bGe c.x_max (xs.getD c.N [])

/-- The problem instance that `solve` builds for the external solver: the
reference defaults to the zero trajectory when it is `None` (lines 52–53). -/
def MPCController.qpOf (c : MPCController) (x0 : Vec) (xref : Option (List Vec)) :
    QPInst :=
  { c := c, x0 := x0, x_ref := xref.getD (zeroRef c) }

/-- Translation of `MPCController.solve` (lines 41–87): build the problem,
call the external solver, raise `ValueError` with the terminal status when
the status is not `cp.OPTIMAL` (the string "optimal"), and otherwise return
the first control input `u.value[0]` together with the predicted states
`x.value`. -/
def MPCController.solve (c : MPCController) (S : Solver) (x0 : Vec)
    (xref : Option (List Vec)) : Except PyError (Vec × List Vec) :=
  if (S (c.qpOf x0 xref)).status = "optimal" then
    .ok ((S (c.qpOf x0 xref)).u.headD [], (S (c.qpOf x0 xref)).x)
  else
    .error (.valueError ("MPC problem inte optimalt löst: " ++ (S (c.qpOf x0 xref)).status))

/-- Soundness of the external solver: whenever it reports the status
"optimal", the variable values it returns have the declared shapes and
satisfy every constraint of the problem instance.  This is the documented
contract of a convex QP solver and is the only assumption made about it. -/
def SolverSound (S : Solver) : Prop :=
  ∀ inst : QPInst, (S inst).status = "optimal" →
    (S inst).x.length = inst.c.N + 1 ∧ (S inst).u.length = inst.c.N ∧
    feasibleB inst.c inst.x0 (S inst).x (S inst).u = true

/-- Translation of the reference-window computation of `simulate`
(lines 108–115): slice `x_ref[t : min(t+N+1, len(x_ref))]`; if the slice is
shorter than `N+1`, pad it by stacking copies of its last row.  Indexing the
last row of an empty slice raises `IndexError` in Python, modelled by the
`none` result. -/
def refWindow (N : Nat) (r : List Vec) (t : Nat) : Option (List Vec) :=
  if ((r.drop t).take (N + 1)).length < N + 1 then
    match ((r.drop t).take (N + 1)).getLast? with
    | none => none
    | some last =>
        some ((r.drop t).take (N + 1) ++
          List.replicate (N + 1 - ((r.drop t).take (N + 1)).length) last)
  else
    some ((r.drop t).take (N + 1))

/-- One step of the reference handling in the `simulate` loop: with no
reference the solver gets `None` (line 115); with a reference the window is
computed, and an empty remaining reference aborts the whole call with
`IndexError`. -/
def stepRef (N : Nat) (xref : Option (List Vec)) (t : Nat) :
    Except PyError (Option (List Vec)) :=
  match xref with
  | none => .ok none
  | some r =>
    match refWindow N r t with
    | none => .error .indexError
    | some w => .ok (some w)

/-- The loop of `MPCController.simulate` (lines 106–123), written as
structural recursion on the number of remaining steps: at absolute step `t`
compute the reference window, solve for the current state, record the first
input, advance the state by `states[t+1] = A @ states[t] + B @ u_opt`, and
recurse.  Any raised exception propagates; on success the recorded states
(current state included) and inputs are returned. -/
def simFrom (c : MPCController) (S : Solver) (xref : Option (List Vec)) :
    Nat → Nat → Vec → Except PyError (List Vec × List Vec)
  | 0, _, x => .ok ([x], [])
  | k + 1, t, x =>
    match stepRef c.N xref t with
    | .error e => .error e
    | .ok win =>
      match c.solve S x win with
      | .error e => .error e
      | .ok (u0, _) =>
        match simFrom c S xref k (t + 1) (vecAdd (matVec c.A x) (matVec c.B u0)) with
        | .error e => .error e
        | .ok (xs, us) => .ok (x :: xs, u0 :: us)

/-- Translation of `MPCController.simulate` (lines 89–123): run `T` loop
iterations from step `0` starting at `x0`; on success the returned pair
holds the `T+1` visited states and the `T` applied inputs. -/
def MPCController.simulate (c : MPCController) (S : Solver) (x0 : Vec) (T : Nat)
    (xref : Option (List Vec)) : Except PyError (List Vec × List Vec) :=
  simFrom c S xref T 0 x0

/-- Concrete scalar controller used to instantiate the theorems:
`A = B = Q = R = [[1]]`, horizon `N = 1`, box bounds `[-10,10]` on the state
and `[-1,1]` on the input. -/
def cW : MPCController :=
  { A := [[1]], B := [[1]], Q := [[1]], R := [[1]], N := 1,
    x_min := [.rat (-10)], x_max := [.rat 10],
    u_min := [.rat (-1)], u_max := [.rat 1] }

/-- The problem instance posed by `cW.solve` at `x0 = [0]` with no reference. -/
def instW : QPInst := cW.qpOf [0] none

/-- A feasible optimal outcome for `instW`: keep the state at the origin. -/
def outW : SolveOutcome := { status := "optimal", u := [[0]], x := [[0], [0]] }

/-- A concrete sound solver: optimal exactly on `instW`, infeasible elsewhere. -/
def Sgood : Solver := fun inst =>
  if inst = instW then outW else { status := "infeasible", u := [], x := [] }

/-- A concrete solver that succeeds at the origin and fails elsewhere; with
`cW` it makes `simulate` succeed at step 0 and fail at step 1. -/
def S7 : Solver := fun inst =>
  if inst.x0 = [0] then { status := "optimal", u := [[1]], x := [[0], [1]] }
  else { status := "infeasible", u := [], x := [] }

/-- A deliberately non-conforming configuration: `A` is `2 × 3` (not
square), `B` has one row (not `A`'s 2), `Q` is `3 × 2` (not `n × n`), `R` is
`1 × 2`, and the supplied `x_min` has length 1 instead of `n = 2`. -/
def badA : Mat := [[1, 0, 0], [0, 1, 0]]

/-- Unfolding lemma: components of a satisfied lower-bound constraint.  When
`bLe bs v` holds and position `i` of the bound vector holds the finite bound
`a`, the corresponding component of `v` is at least `a`. -/
theorem bLe_getD : ∀ (bs : List XRat) (v : Vec), bLe bs v = true →
    ∀ (i : Nat) (a : ℚ), bs.getD i .pinf = .rat a → a ≤ v.getD i 0 := by
  intro bs
  induction bs with
  | nil =>
    intro v _ i a hb
    simp [List.getD] at hb
  | cons b bs ih =>
    intro v h i a hb
    cases v with
    | nil => simp [bLe] at h
    | cons q qs =>
      rw [bLe, Bool.and_eq_true] at h
      cases i with
      | zero =>
        simp only [List.getD_cons_zero] at hb ⊢
        rw [hb, XRat.leQ] at h
        exact of_decide_eq_true h.1
      | succ i =>
        simp only [List.getD_cons_succ] at hb ⊢
        exact ih qs h.2 i a hb

/-- Unfolding lemma: components of a satisfied upper-bound constraint. -/
theorem bGe_getD : ∀ (bs : List XRat) (v : Vec), bGe bs v = true →
    ∀ (i : Nat) (a : ℚ), bs.getD i .ninf = .rat a → v.getD i 0 ≤ a := by
  intro bs
  induction bs with
  | nil =>
    intro v _ i a hb
    simp [List.getD] at hb
  | cons b bs ih =>
    intro v h i a hb
    cases v with
    | nil => simp [bGe] at h
    | cons q qs =>
      rw [bGe, Bool.and_eq_true] at h
      cases i with
      | zero =>
        simp only [List.getD_cons_zero] at hb ⊢
        rw [hb, XRat.geQ] at h
        exact of_decide_eq_true h.1
      | succ i =>
        simp only [List.getD_cons_succ] at hb ⊢
        exact ih qs h.2 i a hb

/-- Extraction of the individual constraints from a satisfied constraint
set (the conjuncts built on lines 67–77). -/
theorem feasibleB_spec (c : MPCController) (x0 : Vec) (xs us : List Vec)
    (h : feasibleB c x0 xs us = true) :
    xs.getD 0 [] = x0 ∧
    (∀ k, k < c.N →
      xs.getD (k + 1) [] =
        vecAdd (matVec c.A (xs.getD k [])) (matVec c.B (us.getD k [])) ∧
      bLe c.x_min (xs.getD k []) = true ∧ bGe c.x_max (xs.getD k []) = true ∧
      bLe c.u_min (us.getD k []) = true ∧ bGe c.u_max (us.getD k []) = true) ∧
    bLe c.x_min (xs.getD c.N []) = true ∧ bGe c.x_max (xs.getD c.N []) = true := by
  rw [feasibleB] at h
  simp only [Bool.and_eq_true, List.all_eq_true, List.mem_range,
    decide_eq_true_eq] at h
  obtain ⟨⟨⟨h0, hloop⟩, htl⟩, htu⟩ := h
  refine ⟨h0, ?_, htl, htu⟩
  intro k hk
  obtain ⟨⟨⟨⟨hd, hxl⟩, hxu⟩, hul⟩, huu⟩ := hloop k hk
  exact ⟨hd, hxl, hxu, hul, huu⟩

/-- Master lemma about the simulation loop: a successful run of `k` steps
starting at absolute step `t` records `k+1` states beginning with the start
state, and at every step `j` the recorded input is the first input returned
by `solve` at the recorded state with that step's reference window, while
the next recorded state is obtained from the dynamics. -/
theorem simFrom_ok (c : MPCController) (S : Solver) (xref : Option (List Vec)) :
    ∀ (k t : Nat) (x : Vec) (xs us : List Vec),
    simFrom c S xref k t x = .ok (xs, us) →
    xs.length = k + 1 ∧ us.length = k ∧ xs.getD 0 [] = x ∧
    ∀ j, j < k →
      (∃ w rest, stepRef c.N xref (t + j) = .ok w ∧
        c.solve S (xs.getD j []) w = .ok (us.getD j [], rest)) ∧
      xs.getD (j + 1) [] =
        vecAdd (matVec c.A (xs.getD j [])) (matVec c.B (us.getD j [])) := by
  intro k
  induction k with
  | zero =>
    intro t x xs us h
    rw [simFrom] at h
    rw [Except.ok.injEq, Prod.mk.injEq] at h
    obtain ⟨hxs, hus⟩ := h
    subst hxs
    subst hus
    exact ⟨rfl, rfl, rfl, fun j hj => absurd hj (Nat.not_lt_zero j)⟩
  | succ k ih =>
    intro t x xs us h
    rw [simFrom] at h
    cases hw : stepRef c.N xref t with
    | error e => rw [hw] at h; exact absurd h (by simp)
    | ok win =>
      rw [hw] at h
      simp only [] at h
      cases hs : c.solve S x win with
      | error e => rw [hs] at h; simp only [] at h; exact absurd h (by simp)
      | ok p =>
        obtain ⟨u0, rest⟩ := p
        rw [hs] at h
        simp only [] at h
        cases hr : simFrom c S xref k (t + 1) (vecAdd (matVec c.A x) (matVec c.B u0)) with
        | error e => rw [hr] at h; simp only [] at h; exact absurd h (by simp)
        | ok pr =>
          obtain ⟨xs', us'⟩ := pr
          rw [hr] at h
          simp only [] at h
          rw [Except.ok.injEq, Prod.mk.injEq] at h
          obtain ⟨hxs, hus⟩ := h
          subst hxs
          subst hus
          obtain ⟨hl1, hl2, hh, hstep⟩ := ih (t + 1) _ xs' us' hr
          refine ⟨by simp [hl1], by simp [hl2], rfl, ?_⟩
          intro j hj
          cases j with
          | zero =>
            constructor
            · refine ⟨win, rest, by simpa using hw, ?_⟩
              simpa using hs
            · simpa using hh
          | succ j =>
            have hj' : j < k := Nat.lt_of_succ_lt_succ hj
            obtain ⟨⟨w, rest', hw', hs'⟩, hdyn⟩ := hstep j hj'
            constructor
            · refine ⟨w, rest', ?_, by simpa using hs'⟩
              have harr : t + (j + 1) = t + 1 + j := by omega
              rw [harr]
              exact hw'
            · simpa using hdyn

/-- A failing solver call at the head of a nonempty simulation loop aborts
the loop with the raised error. -/
theorem simFrom_fail_head (c : MPCController) (S : Solver) (xref : Option (List Vec))
    (k t : Nat) (x : Vec) (w : Option (List Vec)) (e : PyError)
    (hw : stepRef c.N xref t = .ok w) (hs : c.solve S x w = .error e) :
    simFrom c S xref (k + 1) t x = .error e := by
  rw [simFrom, hw]
  simp only []
  rw [hs]

/-- Appending further steps to a successful run: if the continuation fails
starting from the last recorded state, the whole longer run fails with the
same error. -/
theorem simFrom_error_extend (c : MPCController) (S : Solver) (xref : Option (List Vec)) :
    ∀ (k t : Nat) (x : Vec) (xs us : List Vec),
    simFrom c S xref k t x = .ok (xs, us) →
    ∀ (j : Nat) (e : PyError),
    simFrom c S xref j (t + k) (xs.getD k []) = .error e →
    simFrom c S xref (k + j) t x = .error e := by
  intro k
  induction k with
  | zero =>
    intro t x xs us h j e hf
    rw [simFrom] at h
    rw [Except.ok.injEq, Prod.mk.injEq] at h
    obtain ⟨hxs, _⟩ := h
    subst hxs
    simpa using hf
  | succ k ih =>
    intro t x xs us h j e hf
    rw [simFrom] at h
    cases hw : stepRef c.N xref t with
    | error e' => rw [hw] at h; exact absurd h (by simp)
    | ok win =>
      rw [hw] at h
      simp only [] at h
      cases hs : c.solve S x win with
      | error e' => rw [hs] at h; simp only [] at h; exact absurd h (by simp)
      | ok p =>
        obtain ⟨u0, rest⟩ := p
        rw [hs] at h
        simp only [] at h
        cases hr : simFrom c S xref k (t + 1) (vecAdd (matVec c.A x) (matVec c.B u0)) with
        | error e' => rw [hr] at h; simp only [] at h; exact absurd h (by simp)
        | ok pr =>
          obtain ⟨xs', us'⟩ := pr
          rw [hr] at h
          simp only [] at h
          rw [Except.ok.injEq, Prod.mk.injEq] at h
          obtain ⟨hxs, _⟩ := h
          subst hxs
          have harr : t + (k + 1) = t + 1 + k := by omega
          rw [harr] at hf
          have hf' : simFrom c S xref j (t + 1 + k) (xs'.getD k []) = .error e := by
            simpa using hf
          have hext := ih (t + 1) _ xs' us' hr j e hf'
          have harr2 : k + 1 + j = (k + j) + 1 := by omega
          rw [harr2, simFrom, hw]
          simp only []
          rw [hs]
          simp only []
          rw [hext]

/-- The concrete solver `Sgood` satisfies the solver contract: it reports
"optimal" only on the single instance `instW`, where its outcome has the
declared shapes and satisfies every constraint. -/
theorem Sgood_sound : SolverSound Sgood := by
  intro inst h
  by_cases hi : inst = instW
  · subst hi
    refine ⟨by simp [Sgood, instW, outW, MPCController.qpOf, cW], ?_, ?_⟩
    · simp [Sgood, instW, outW, MPCController.qpOf, cW]
    · simp [Sgood, instW, outW, MPCController.qpOf, cW, feasibleB, bLe, bGe,
        XRat.leQ, XRat.geQ, vecAdd, matVec, dot]
  · rw [Sgood] at h
    rw [if_neg hi] at h
    simp at h

/-- C8 counterexample: this configuration violates every dimension rule of
the claim at once (`A` is 2×3 and not square, `B` has 1 row where `A` has 2,
`Q` is 1×1 instead of n×n, `R` is 1×2 instead of m×m, and the supplied
`x_min` has length 1 instead of n), yet construction succeeds and hands back
a controller object: no configuration failure is raised at construction
time. -/
theorem init_no_validation_cex :
    (∃ c, MPCController.init badA [[1]] [[1]] [[1, 1]] 3
        (some [.rat 0]) none none none = .ok c ∧ c.A = badA) ∧
    badA.length ≠ (badA.getD 0 []).length := by
  constructor
  · exact ⟨_, rfl, rfl⟩
  · decide

/-- C8 (amended): the constructor performs no dimension validation at all;
it succeeds for every combination of arguments and simply stores the
matrices, so non-conforming dimensions are never detected at construction
time (they can only surface later, at solve time). -/
theorem init_always_succeeds :
    ∀ (A B Q R : Mat) (N : Nat) (x1 x2 u1 u2 : Option (List XRat)),
    ∃ c, MPCController.init A B Q R N x1 x2 u1 u2 = .ok c ∧
      c.A = A ∧ c.B = B ∧ c.Q = Q ∧ c.R = R ∧ c.N = N := by
  intro A B Q R N x1 x2 u1 u2
  exact ⟨_, rfl, rfl, rfl, rfl, rfl, rfl⟩

/-- C10: simulating `T = 0` steps returns exactly one state, equal to the
initial state, and no inputs.  The result is the same for every solver, in
particular for one whose problems are all infeasible, so the Horizon Solver
is never consulted and no optimization failure can be raised. -/
theorem simulate_zero_steps :
    ∀ (c : MPCController) (S Sfail : Solver) (x0 : Vec) (xref : Option (List Vec)),
    c.simulate S x0 0 xref = .ok ([x0], []) ∧
    c.simulate S x0 0 xref = c.simulate Sfail x0 0 xref := by
  intro c S Sfail x0 xref
  exact ⟨rfl, rfl⟩

/-- C9: `solve` threads no mutable state and consults nothing besides its
arguments and the (deterministic) external solver, so two calls with the
same configuration, the same initial state and the same reference return
identical results, in particular the same first input. -/
theorem solve_deterministic (S : Solver) (c c' : MPCController) (x0 x0' : Vec)
    (r r' : Option (List Vec)) (hc : c = c') (hx : x0 = x0') (hr : r = r') :
    c.solve S x0 r = c'.solve S x0' r' := by
  subst hc
  subst hx
  subst hr
  rfl

/-- Instantiation of `solve_deterministic` at a concrete configuration. -/
theorem solve_deterministic_witness :
    cW.solve Sgood [0] none = cW.solve Sgood [0] none :=
  solve_deterministic Sgood cW cW [0] [0] none none rfl rfl rfl

/-- C2: a simulation of `T` steps that completes without error returns
exactly `T+1` states and exactly `T` inputs, and the first returned state is
the initial state `x0`. -/
theorem simulate_length_invariant (c : MPCController) (S : Solver) (x0 : Vec)
    (T : Nat) (xref : Option (List Vec)) (st ins : List Vec) (_hT : 0 < T)
    (h : c.simulate S x0 T xref = .ok (st, ins)) :
    st.length = T + 1 ∧ ins.length = T ∧ st.getD 0 [] = x0 := by
  obtain ⟨h1, h2, h3, _⟩ := simFrom_ok c S xref T 0 x0 st ins h
  exact ⟨h1, h2, h3⟩

/-- Instantiation of `simulate_length_invariant` on a concrete run. -/
theorem simulate_length_invariant_witness :
    ([[(0 : ℚ)], [0]] : List Vec).length = 1 + 1 ∧
    ([[(0 : ℚ)]] : List Vec).length = 1 ∧
    ([[(0 : ℚ)], [0]] : List Vec).getD 0 [] = [0] :=
  simulate_length_invariant cW Sgood [0] 1 none [[0], [0]] [[0]] (by decide)
    (by simp [MPCController.simulate, simFrom, stepRef, MPCController.solve,
      MPCController.qpOf, Sgood, instW, outW, cW, zeroRef, MPCController.nDim,
      vecAdd, matVec, dot])

/-- C1: receding-horizon stepping.  In a completed simulation, the input
recorded at every step `t` is exactly the first optimal input returned by
`solve` invoked at the recorded true state of step `t` (with that step's
reference window), and the next recorded state is obtained from the true
dynamics `states[t+1] = A @ states[t] + B @ inputs[t]`. -/
theorem simulate_receding_horizon_step (c : MPCController) (S : Solver)
    (x0 : Vec) (T : Nat) (xref : Option (List Vec)) (st ins : List Vec)
    (h : c.simulate S x0 T xref = .ok (st, ins)) (t : Nat) (ht : t < T) :
    (∃ w rest, stepRef c.N xref t = .ok w ∧
      c.solve S (st.getD t []) w = .ok (ins.getD t [], rest)) ∧
    st.getD (t + 1) [] =
      vecAdd (matVec c.A (st.getD t [])) (matVec c.B (ins.getD t [])) := by
  obtain ⟨_, _, _, hstep⟩ := simFrom_ok c S xref T 0 x0 st ins h
  simpa using hstep t ht

/-- Instantiation of `simulate_receding_horizon_step` on a concrete run. -/
theorem simulate_receding_horizon_step_witness :
    (∃ w rest, stepRef cW.N none 0 = .ok w ∧
      cW.solve Sgood (([[(0 : ℚ)], [0]] : List Vec).getD 0 []) w =
        .ok (([[(0 : ℚ)]] : List Vec).getD 0 [], rest)) ∧
    ([[(0 : ℚ)], [0]] : List Vec).getD (0 + 1) [] =
      vecAdd (matVec cW.A (([[(0 : ℚ)], [0]] : List Vec).getD 0 []))
        (matVec cW.B (([[(0 : ℚ)]] : List Vec).getD 0 [])) :=
  simulate_receding_horizon_step cW Sgood [0] 1 none [[0], [0]] [[0]]
    (by simp [MPCController.simulate, simFrom, stepRef, MPCController.solve,
      MPCController.qpOf, Sgood, instW, outW, cW, zeroRef, MPCController.nDim,
      vecAdd, matVec, dot]) 0 (by decide)

/-- C3: dynamics consistency of a solve.  For a solver satisfying the QP
solver contract, every successful `solve` returns a predicted state sequence
of length `N+1` whose head is the initial state and whose consecutive
entries satisfy `x[k+1] = A x[k] + B u[k]` exactly, where `u` is the optimal
input sequence of the underlying program: these are equality constraints of
the optimization. -/
theorem solve_dynamics_consistency (c : MPCController) (S : Solver) (x0 : Vec)
    (xref : Option (List Vec)) (hS : SolverSound S) (u0 : Vec) (xs : List Vec)
    (h : c.solve S x0 xref = .ok (u0, xs)) :
    xs.length = c.N + 1 ∧ xs.getD 0 [] = x0 ∧
    ∀ k, k < c.N → xs.getD (k + 1) [] =
      vecAdd (matVec c.A (xs.getD k []))
        (matVec c.B ((S (c.qpOf x0 xref)).u.getD k [])) := by
  by_cases hst : (S (c.qpOf x0 xref)).status = "optimal"
  · obtain ⟨hxlen, hulen, hfeas⟩ := hS (c.qpOf x0 xref) hst
    have hx : (S (c.qpOf x0 xref)).x = xs := by
      simp only [MPCController.solve] at h
      rw [if_pos hst, Except.ok.injEq, Prod.mk.injEq] at h
      exact h.2
    rw [hx] at hxlen hfeas
    obtain ⟨h0, hloop, _, _⟩ := feasibleB_spec c x0 xs _ hfeas
    exact ⟨hxlen, h0, fun k hk => (hloop k hk).1⟩
  · simp only [MPCController.solve] at h
    rw [if_neg hst] at h
    exact absurd h (by simp)

/-- Instantiation of `solve_dynamics_consistency` on a concrete solve. -/
theorem solve_dynamics_consistency_witness :
    ([[(0 : ℚ)], [0]] : List Vec).length = cW.N + 1 ∧
    ([[(0 : ℚ)], [0]] : List Vec).getD 0 [] = [0] ∧
    ∀ k, k < cW.N → ([[(0 : ℚ)], [0]] : List Vec).getD (k + 1) [] =
      vecAdd (matVec cW.A (([[(0 : ℚ)], [0]] : List Vec).getD k []))
        (matVec cW.B ((Sgood (cW.qpOf [0] none)).u.getD k [])) :=
  solve_dynamics_consistency cW Sgood [0] none Sgood_sound [0] [[0], [0]]
    (by simp [MPCController.solve, MPCController.qpOf, Sgood, instW, outW, cW,
      zeroRef, MPCController.nDim])

/-- C4: constraint satisfaction.  For a solver satisfying the QP solver
contract, after every successful `solve` each predicted state `x[k]`,
`k = 0..N`, satisfies the componentwise state box constraints and each
optimal input `u[k]`, `k = 0..N-1`, satisfies the componentwise input box
constraints. -/
theorem solve_constraint_satisfaction (c : MPCController) (S : Solver)
    (x0 : Vec) (xref : Option (List Vec)) (hS : SolverSound S) (u0 : Vec)
    (xs : List Vec) (h : c.solve S x0 xref = .ok (u0, xs)) :
    (∀ k, k ≤ c.N →
      bLe c.x_min (xs.getD k []) = true ∧ bGe c.x_max (xs.getD k []) = true) ∧
    (∀ k, k < c.N →
      bLe c.u_min ((S (c.qpOf x0 xref)).u.getD k []) = true ∧
      bGe c.u_max ((S (c.qpOf x0 xref)).u.getD k []) = true) := by
  by_cases hst : (S (c.qpOf x0 xref)).status = "optimal"
  · obtain ⟨hxlen, hulen, hfeas⟩ := hS (c.qpOf x0 xref) hst
    have hx : (S (c.qpOf x0 xref)).x = xs := by
      simp only [MPCController.solve] at h
      rw [if_pos hst, Except.ok.injEq, Prod.mk.injEq] at h
      exact h.2
    rw [hx] at hfeas
    obtain ⟨_, hloop, htl, htu⟩ := feasibleB_spec c x0 xs _ hfeas
    constructor
    · intro k hk
      rcases Nat.lt_or_eq_of_le hk with hlt | heq
      · exact ⟨(hloop k hlt).2.1, (hloop k hlt).2.2.1⟩
      · rw [heq]
        exact ⟨htl, htu⟩
    · intro k hk
      exact ⟨(hloop k hk).2.2.2.1, (hloop k hk).2.2.2.2⟩
  · simp only [MPCController.solve] at h
    rw [if_neg hst] at h
    exact absurd h (by simp)

/-- Instantiation of `solve_constraint_satisfaction` on a concrete solve. -/
theorem solve_constraint_satisfaction_witness :
    (∀ k, k ≤ cW.N →
      bLe cW.x_min (([[(0 : ℚ)], [0]] : List Vec).getD k []) = true ∧
      bGe cW.x_max (([[(0 : ℚ)], [0]] : List Vec).getD k []) = true) ∧
    (∀ k, k < cW.N →
      bLe cW.u_min ((Sgood (cW.qpOf [0] none)).u.getD k []) = true ∧
      bGe cW.u_max ((Sgood (cW.qpOf [0] none)).u.getD k []) = true) :=
  solve_constraint_satisfaction cW Sgood [0] none Sgood_sound [0] [[0], [0]]
    (by simp [MPCController.solve, MPCController.qpOf, Sgood, instW, outW, cW,
      zeroRef, MPCController.nDim])

/-- C6: `solve` fails exactly when the external solver does not report the
optimal status; on success it returns the first optimal input and the full
predicted state sequence; on failure it raises an error carrying the
solver's terminal status string; and whenever the configured box constraints
are mutually exclusive in some component (a finite lower bound above the
finite upper bound), a contract-satisfying solver can never report optimal,
so `solve` raises rather than returning a clamped or garbage result. -/
theorem solve_error_iff_nonoptimal (c : MPCController) (S : Solver) (x0 : Vec)
    (xref : Option (List Vec)) (hS : SolverSound S) :
    ((∃ u0 xs, c.solve S x0 xref = .ok (u0, xs)) ↔
      (S (c.qpOf x0 xref)).status = "optimal") ∧
    ((S (c.qpOf x0 xref)).status = "optimal" →
      c.solve S x0 xref =
        .ok ((S (c.qpOf x0 xref)).u.headD [], (S (c.qpOf x0 xref)).x)) ∧
    ((S (c.qpOf x0 xref)).status ≠ "optimal" →
      c.solve S x0 xref = .error (.valueError
        ("MPC problem inte optimalt löst: " ++ (S (c.qpOf x0 xref)).status))) ∧
    (∀ i a b, c.x_min.getD i .pinf = .rat a → c.x_max.getD i .ninf = .rat b →
      b < a →
      c.solve S x0 xref = .error (.valueError
        ("MPC problem inte optimalt löst: " ++ (S (c.qpOf x0 xref)).status))) := by
  refine ⟨⟨?_, ?_⟩, ?_, ?_, ?_⟩
  · rintro ⟨u0, xs, h⟩
    by_cases hst : (S (c.qpOf x0 xref)).status = "optimal"
    · exact hst
    · simp only [MPCController.solve] at h
      rw [if_neg hst] at h
      exact absurd h (by simp)
  · intro hst
    refine ⟨(S (c.qpOf x0 xref)).u.headD [], (S (c.qpOf x0 xref)).x, ?_⟩
    simp only [MPCController.solve]
    rw [if_pos hst]
  · intro hst
    simp only [MPCController.solve]
    rw [if_pos hst]
  · intro hst
    simp only [MPCController.solve]
    rw [if_neg hst]
  · intro i a b hmin hmax hba
    by_cases hst : (S (c.qpOf x0 xref)).status = "optimal"
    · exfalso
      obtain ⟨_, _, hfeas⟩ := hS (c.qpOf x0 xref) hst
      obtain ⟨_, _, htl, htu⟩ := feasibleB_spec c x0 _ _ hfeas
      have h1 := bLe_getD c.x_min _ htl i a hmin
      have h2 := bGe_getD c.x_max _ htu i b hmax
      exact absurd (le_trans h1 h2) (not_le.mpr hba)
    · simp only [MPCController.solve]
      rw [if_neg hst]

/-- Instantiation of `solve_error_iff_nonoptimal` at a concrete solver. -/
theorem solve_error_iff_nonoptimal_witness :
    ((∃ u0 xs, cW.solve Sgood [0] none = .ok (u0, xs)) ↔
      (Sgood (cW.qpOf [0] none)).status = "optimal") ∧
    ((Sgood (cW.qpOf [0] none)).status = "optimal" →
      cW.solve Sgood [0] none =
        .ok ((Sgood (cW.qpOf [0] none)).u.headD [], (Sgood (cW.qpOf [0] none)).x)) ∧
    ((Sgood (cW.qpOf [0] none)).status ≠ "optimal" →
      cW.solve Sgood [0] none = .error (.valueError
        ("MPC problem inte optimalt löst: " ++ (Sgood (cW.qpOf [0] none)).status))) ∧
    (∀ i a b, cW.x_min.getD i .pinf = .rat a → cW.x_max.getD i .ninf = .rat b →
      b < a →
      cW.solve Sgood [0] none = .error (.valueError
        ("MPC problem inte optimalt löst: " ++ (Sgood (cW.qpOf [0] none)).status))) :=
  solve_error_iff_nonoptimal cW Sgood [0] none Sgood_sound

/-- Indexing a `take`: positions below the cut agree with the base list. -/
theorem getD_take_of_lt {α : Type} (d : α) :
    ∀ (l : List α) (n j : Nat), j < n → (l.take n).getD j d = l.getD j d := by
  intro l
  induction l with
  | nil =>
    intro n j _
    simp
  | cons a l ih =>
    intro n j hj
    cases n with
    | zero => exact absurd hj (Nat.not_lt_zero j)
    | succ n =>
      cases j with
      | zero => simp
      | succ j => simpa using ih n j (Nat.lt_of_succ_lt_succ hj)

/-- Indexing a `drop` shifts the position by the number dropped. -/
theorem getD_drop_add {α : Type} (d : α) :
    ∀ (l : List α) (t j : Nat), (l.drop t).getD j d = l.getD (t + j) d := by
  intro l
  induction l with
  | nil =>
    intro t j
    simp
  | cons a l ih =>
    intro t j
    cases t with
    | zero => simp
    | succ t =>
      have harr : t + 1 + j = (t + j) + 1 := by omega
      rw [harr]
      simp [ih t j]

/-- Indexing an append below the boundary reads the first list. -/
theorem getD_append_lt {α : Type} (d : α) :
    ∀ (l l' : List α) (j : Nat), j < l.length → (l ++ l').getD j d = l.getD j d := by
  intro l
  induction l with
  | nil =>
    intro l' j hj
    exact absurd hj (by simp)
  | cons a l ih =>
    intro l' j hj
    cases j with
    | zero => simp
    | succ j => simpa using ih l' j (by simpa using hj)

/-- Indexing an append at or above the boundary reads the second list. -/
theorem getD_append_ge {α : Type} (d : α) :
    ∀ (l l' : List α) (j : Nat), l.length ≤ j →
      (l ++ l').getD j d = l'.getD (j - l.length) d := by
  intro l
  induction l with
  | nil =>
    intro l' j _
    simp
  | cons a l ih =>
    intro l' j hj
    cases j with
    | zero => exact absurd hj (by simp)
    | succ j =>
      have hj' : l.length ≤ j := by simpa using hj
      simpa using ih l' j hj'

/-- Indexing a `replicate` inside its range yields the replicated value. -/
theorem getD_replicate_of_lt {α : Type} (d a : α) :
    ∀ (n j : Nat), j < n → (List.replicate n a).getD j d = a := by
  intro n
  induction n with
  | zero =>
    intro j hj
    exact absurd hj (Nat.not_lt_zero j)
  | succ n ih =>
    intro j hj
    rw [List.replicate_succ]
    cases j with
    | zero => simp
    | succ j => simpa using ih j (Nat.lt_of_succ_lt_succ hj)

/-- The last element of a nonempty list, expressed through `getD`. -/
theorem getLast_q_eq_getD {α : Type} (d : α) :
    ∀ (l : List α), l ≠ [] → l.getLast? = some (l.getD (l.length - 1) d) := by
  intro l
  induction l with
  | nil =>
    intro h
    exact absurd rfl h
  | cons a l ih =>
    intro _
    cases l with
    | nil => rfl
    | cons b l' =>
      rw [List.getLast?_cons_cons, ih (by simp)]
      simp

/-- C5 counterexample: with horizon `N = 1`, a supplied reference of length
1 (which is ≥ 1) and `T = 2` simulation steps, the step `t = 1` slice of the
reference is empty, so indexing its last element fails: no window of `N+1`
entries is produced at that step and the whole simulation aborts with
`IndexError`, refuting the claim as stated. -/
theorem ref_window_cex :
    1 ≤ ([[(0 : ℚ)]] : List Vec).length ∧
    refWindow cW.N [[(0 : ℚ)]] 1 = none ∧
    MPCController.simulate cW Sgood [0] 2 (some [[(0 : ℚ)]]) = .error .indexError := by
  refine ⟨by decide, by simp [refWindow, cW], ?_⟩
  simp [MPCController.simulate, simFrom, stepRef, refWindow, MPCController.solve,
    MPCController.qpOf, Sgood, instW, outW, cW, zeroRef, MPCController.nDim,
    vecAdd, matVec, dot]

/-- C5 (amended): at every step `t` that still lies inside the supplied
reference trajectory (`t < len(x_ref)`), the window handed to the Horizon
Solver exists, has exactly `N+1` entries, and its entry `j` is the reference
sample at time `t+j` clamped to the last available sample (the slice
`[t, t+N]` padded by repeating the last sample); and when no reference is
supplied at all, `solve` poses the problem with the all-zero `(N+1) × n`
reference. -/
theorem ref_window_amended (c : MPCController) (r : List Vec) (t : Nat)
    (x0 : Vec) (ht : t < r.length) :
    (∃ w, refWindow c.N r t = some w ∧ stepRef c.N (some r) t = .ok (some w) ∧
      w.length = c.N + 1 ∧
      ∀ j, j ≤ c.N → w.getD j [] = r.getD (min (t + j) (r.length - 1)) []) ∧
    (c.qpOf x0 none).x_ref = zeroRef c := by
  have hsl : ((r.drop t).take (c.N + 1)).length = min (c.N + 1) (r.length - t) := by
    simp
  have hmain : ∃ w, refWindow c.N r t = some w ∧ w.length = c.N + 1 ∧
      ∀ j, j ≤ c.N → w.getD j [] = r.getD (min (t + j) (r.length - 1)) [] := by
    by_cases hsmall : r.length - t < c.N + 1
    · -- short remaining reference: the slice is padded with its last sample
      have slen : ((r.drop t).take (c.N + 1)).length = r.length - t := by
        rw [hsl]
        exact Nat.min_eq_right (Nat.le_of_lt hsmall)
      have hcase : ((r.drop t).take (c.N + 1)).length < c.N + 1 := by
        rw [slen]
        exact hsmall
      have hpos : 0 < ((r.drop t).take (c.N + 1)).length := by
        rw [slen]
        omega
      have hne : (r.drop t).take (c.N + 1) ≠ [] := List.length_pos.mp hpos
      have hlast := getLast_q_eq_getD [] ((r.drop t).take (c.N + 1)) hne
      have hlastval : ((r.drop t).take (c.N + 1)).getD
          (((r.drop t).take (c.N + 1)).length - 1) [] = r.getD (r.length - 1) [] := by
        rw [getD_take_of_lt [] (r.drop t) (c.N + 1) _ (by omega)]
        rw [getD_drop_add [] r t _]
        have hidx : t + (((r.drop t).take (c.N + 1)).length - 1) = r.length - 1 := by
          rw [slen]
          omega
        rw [hidx]
      refine ⟨(r.drop t).take (c.N + 1) ++
        List.replicate (c.N + 1 - ((r.drop t).take (c.N + 1)).length)
          (((r.drop t).take (c.N + 1)).getD
            (((r.drop t).take (c.N + 1)).length - 1) []), ?_, ?_, ?_⟩
      · simp only [refWindow]
        rw [if_pos hcase, hlast]
      · simp only [List.length_append, List.length_replicate]
        omega
      · intro j hj
        by_cases hjs : j < ((r.drop t).take (c.N + 1)).length
        · rw [getD_append_lt [] _ _ j hjs]
          rw [getD_take_of_lt [] (r.drop t) (c.N + 1) j (by omega)]
          rw [getD_drop_add [] r t j]
          have hm : min (t + j) (r.length - 1) = t + j := by
            apply Nat.min_eq_left
            rw [slen] at hjs
            omega
          rw [hm]
        · rw [getD_append_ge [] _ _ j (Nat.le_of_not_lt hjs)]
          rw [getD_replicate_of_lt [] _ _ _ (by omega)]
          rw [hlastval]
          have hm : min (t + j) (r.length - 1) = r.length - 1 := by
            apply Nat.min_eq_right
            rw [slen] at hjs
            omega
          rw [hm]
    · -- enough remaining reference: the slice itself is the window
      have slen : ((r.drop t).take (c.N + 1)).length = c.N + 1 := by
        rw [hsl]
        exact Nat.min_eq_left (by omega)
      have hcase : ¬ ((r.drop t).take (c.N + 1)).length < c.N + 1 := by
        rw [slen]
        omega
      refine ⟨(r.drop t).take (c.N + 1), ?_, slen, ?_⟩
      · simp only [refWindow]
        rw [if_neg hcase]
      · intro j hj
        rw [getD_take_of_lt [] (r.drop t) (c.N + 1) j (by omega)]
        rw [getD_drop_add [] r t j]
        have hm : min (t + j) (r.length - 1) = t + j := by
          apply Nat.min_eq_left
          omega
        rw [hm]
  obtain ⟨w, hrw, hwlen, hwchar⟩ := hmain
  refine ⟨⟨w, hrw, ?_, hwlen, hwchar⟩, rfl⟩
  simp only [stepRef]
  rw [hrw]

/-- C5 witness: instantiation of `ref_window_amended` for a reference of
length 2 at step 1 with horizon 1, where padding occurs. -/
theorem ref_window_amended_witness :
    (∃ w, refWindow cW.N [[(0 : ℚ)], [5]] 1 = some w ∧
      stepRef cW.N (some [[(0 : ℚ)], [5]]) 1 = .ok (some w) ∧
      w.length = cW.N + 1 ∧
      ∀ j, j ≤ cW.N → w.getD j [] =
        ([[(0 : ℚ)], [5]] : List Vec).getD
          (min (1 + j) (([[(0 : ℚ)], [5]] : List Vec).length - 1)) []) ∧
    (cW.qpOf [0] none).x_ref = zeroRef cW :=
  ref_window_amended cW [[0], [5]] 1 [0] (by decide)

/-- C7 counterexample: the error surfaced by a failed simulation does not
carry the time step at which the failure occurred.  Under the solver `S7`
the run of length 2 from `[0]` fails at step 1 (its step 0 succeeds), the
run of length 1 from `[1]` fails at step 0, and both surface exactly the
same error value, which carries only the solver's terminal status. -/
theorem simulate_failure_step_cex :
    MPCController.simulate cW S7 [(0 : ℚ)] 1 none = .ok ([[0], [1]], [[1]]) ∧
    MPCController.simulate cW S7 [(0 : ℚ)] 2 none =
      .error (.valueError "MPC problem inte optimalt löst: infeasible") ∧
    MPCController.simulate cW S7 [(1 : ℚ)] 1 none =
      .error (.valueError "MPC problem inte optimalt löst: infeasible") := by
  refine ⟨?_, ?_, ?_⟩ <;>
    simp [MPCController.simulate, simFrom, stepRef, MPCController.solve,
      MPCController.qpOf, S7, cW, zeroRef, MPCController.nDim, vecAdd, matVec, dot]

/-- C7 (amended): if the simulation has completed `t` steps successfully and
the Horizon Solver call of step `t` fails, then the whole simulation of any
longer length `T > t` aborts immediately with exactly that error — no retry,
no fallback input, and no partial trajectory is returned as success — and
the surfaced error carries the solver's terminal status string (but not the
time step). -/
theorem simulate_failure_propagation (c : MPCController) (S : Solver)
    (xref : Option (List Vec)) (x0 : Vec) (T t : Nat) (xs us : List Vec)
    (w : Option (List Vec)) (e : PyError) (ht : t < T)
    (hok : c.simulate S x0 t xref = .ok (xs, us))
    (hw : stepRef c.N xref t = .ok w)
    (hfail : c.solve S (xs.getD t []) w = .error e) :
    c.simulate S x0 T xref = .error e ∧
    e = .valueError ("MPC problem inte optimalt löst: " ++
      (S (c.qpOf (xs.getD t []) w)).status) := by
  constructor
  · obtain ⟨j, hT⟩ : ∃ j, T = t + (j + 1) := ⟨T - t - 1, by omega⟩
    have hhead : simFrom c S xref (j + 1) (0 + t) (xs.getD t []) = .error e := by
      rw [Nat.zero_add]
      exact simFrom_fail_head c S xref j t (xs.getD t []) w e hw hfail
    have hext := simFrom_error_extend c S xref t 0 x0 xs us hok (j + 1) e hhead
    show simFrom c S xref T 0 x0 = .error e
    rw [hT]
    exact hext
  · by_cases hst : (S (c.qpOf (xs.getD t []) w)).status = "optimal"
    · simp only [MPCController.solve] at hfail
      rw [if_pos hst] at hfail
      exact absurd hfail (by simp)
    · simp only [MPCController.solve] at hfail
      rw [if_neg hst] at hfail
      rw [Except.error.injEq] at hfail
      exact hfail.symm

/-- C7 witness: instantiation of `simulate_failure_propagation` on a
concrete run that succeeds at step 0 and fails at step 1. -/
theorem simulate_failure_propagation_witness :
    MPCController.simulate cW S7 [(0 : ℚ)] 2 none =
      .error (.valueError "MPC problem inte optimalt löst: infeasible") ∧
    (PyError.valueError "MPC problem inte optimalt löst: infeasible" : PyError) =
      .valueError ("MPC problem inte optimalt löst: " ++
        (S7 (cW.qpOf (([[(0 : ℚ)], [1]] : List Vec).getD 1 []) none)).status) :=
  simulate_failure_propagation cW S7 none [0] 2 1 [[0], [1]] [[1]] none
    (.valueError "MPC problem inte optimalt löst: infeasible")
    (by decide)
    (by simp [MPCController.simulate, simFrom, stepRef, MPCController.solve,
      MPCController.qpOf, S7, cW, zeroRef, MPCController.nDim, vecAdd, matVec, dot])
    (by rfl)
    (by simp [MPCController.solve, MPCController.qpOf, S7, cW, zeroRef,
      MPCController.nDim])

end MPC
